import Mathlib

/-!
Verification of the GRPO fine-tuning script `run_grpo_evodiff.py`.

The script fine-tunes an EvoDiff policy model with a GRPO objective whose
reward comes from an external AlphaFold-Multimer run.  This file gives a
shallow embedding of the script's pure computational core:

* `grpo_loss` (lines 88-91 of the source): the GRPO objective combining
  per-sequence log-ratios and advantages with a KL-control term;
* the advantage normalization (lines 152-153):
  `(rewards - rewards.mean()) / (rewards.std() + epsilon_std)`, where
  `rewards.std()` is the PyTorch sample standard deviation (Bessel
  correction, divisor `n - 1`);
* `get_reward` (lines 35-66): the per-sequence scoring oracle bridge with
  its per-sequence exception handling and `-100.0` sentinel;
* `calculate_nll` (lines 72-86): the padded, masked per-sequence NLL;
* the training orchestrator loop (lines 130-181): step/epoch structure,
  frozen reference parameters, and end-of-epoch checkpointing.

Tensors are modelled as lists of exact numbers (`ℚ` where decidability is
useful, `ℝ` where square roots or logarithms occur); floating point
round-off is idealized away, as usual for a shallow embedding.
-/

/- ---------------------------------------------------------------
   Configuration constants from the CONFIG dictionary (lines 17-28)
   --------------------------------------------------------------- -/

/-- CONFIG["kl_beta"] = 0.1. -/
noncomputable def kl_beta_cfg : ℝ := 1 / 10

/-- CONFIG["rl_epochs"] = 30. -/
def rl_epochs : ℕ := 30

/-- CONFIG["steps_per_epoch"] = 100. -/
def steps_per_epoch : ℕ := 100

/-- CONFIG["epsilon_std"] = 1e-8, the advantage-normalization epsilon. -/
noncomputable def epsilon_std : ℝ := 1 / 100000000

/- ---------------------------------------------------------------
   Tensor arithmetic on lists
   --------------------------------------------------------------- -/

/-- Tensor.mean(): the arithmetic mean of the entries. -/
def mean {α : Type} [DivisionRing α] (xs : List α) : α :=
  xs.sum / (xs.length : α)

/-- Tensor.std(): the PyTorch default standard deviation, i.e. the square
root of the Bessel-corrected sample variance (divisor `n - 1`). -/
noncomputable def std (xs : List ℝ) : ℝ :=
  Real.sqrt ((xs.map fun x => (x - mean xs) ^ 2).sum / ((xs.length : ℝ) - 1))

/-- Line 153 of the source:
`advantages = (rewards - rewards.mean()) / (rewards.std() + CONFIG["epsilon_std"])`. -/
noncomputable def advantages (rewards : List ℝ) : List ℝ :=
  rewards.map fun r => (r - mean rewards) / (std rewards + epsilon_std)

/- ---------------------------------------------------------------
   GRPO objective (lines 88-91)
   --------------------------------------------------------------- -/

/-- Line 89: `policy_objective = - (advantages * log_ratios).mean()`
(elementwise product, then mean, then negation). -/
def policy_objective {α : Type} [DivisionRing α] (log_ratios advs : List α) : α :=
  - mean (List.zipWith (fun a r => a * r) advs log_ratios)

/-- Line 90: `kl_penalty = kl_beta * log_ratios.mean()`. -/
def kl_penalty {α : Type} [DivisionRing α] (log_ratios : List α) (kl_beta : α) : α :=
  kl_beta * mean log_ratios

/-- Lines 88-91: `grpo_loss` returns `policy_objective + kl_penalty`. -/
def grpo_loss {α : Type} [DivisionRing α] (log_ratios advs : List α) (kl_beta : α) : α :=
  policy_objective log_ratios advs + kl_penalty log_ratios kl_beta

/-- The loss formula exactly as the specification states it:
`loss = −mean(advantage[i] × log_ratio[i]) + β × mean(log_ratio[i])`. -/
def grpo_loss_spec {α : Type} [DivisionRing α] (log_ratios advs : List α) (kl_beta : α) : α :=
  - mean (List.zipWith (fun a r => a * r) advs log_ratios) + kl_beta * mean log_ratios

/- ---------------------------------------------------------------
   Scoring oracle bridge, get_reward (lines 35-66)
   --------------------------------------------------------------- -/

/-- The body of the try-block of `get_reward` for one sequence, abstracted
over the outcome of the external work.  The oracle argument collapses the
fasta writing, the `af2_predict_fn` invocation and the parsing of
`ranking_debug.json` / `result_*.pkl`: it yields `Except.ok (iptm, avg_plddt)`
when everything succeeds and `Except.error ()` when any of those steps
raises.  On success the reward is `iptm + 0.1 * avg_plddt` (line 59); the
except-branch appends the sentinel `-100.0` (line 64). -/
def rewardOf {α : Type} [DivisionRing α] (outcome : Except Unit (α × α)) : α :=
  match outcome with
  | Except.ok r => r.1 + (1 / 10) * r.2
  | Except.error _ => -100

/-- Lines 35-66: `get_reward` iterates `enumerate(sequences)` and appends
one reward per sequence, in order; a failure for sequence `i` only affects
index `i`. -/
def get_reward {α : Type} [DivisionRing α]
    (oracle : ℕ → List Char → Except Unit (α × α))
    (sequences : List (List Char)) : List α :=
  sequences.enum.map fun p => rewardOf (oracle p.1 p.2)

/- ---------------------------------------------------------------
   Likelihood evaluator, calculate_nll (lines 72-86)
   --------------------------------------------------------------- -/

/-- The tokenizer collaborator (from `OA_DM_38M()`): pad and mask sentinel
ids, a vocabulary size, and the per-character action of `tokenizeMSA`. -/
structure Tokenizer where
  pad_id : ℕ
  mask_id : ℕ
  vocab_size : ℕ
  tokenizeChar : Char → ℕ

/-- Modelled from the spec: the EvoDiff network called on line 80,
`logits = model(masked_input, lengths)`, is an external collaborator that
is not part of this repository.  Per the spec (section 4.2) it is queried
with every position masked and "produces per-position distribution logits
conditioned on each sequence's true (unpadded) length"; it is applied
row-wise to the batch.  A `Model` therefore maps (input row of token ids,
true length of the sequence, position, vocabulary index) to the logit at
that position for that vocabulary entry. -/
def Model : Type := List ℕ → ℕ → ℕ → ℕ → ℝ

/-- Line 75: `tokenizer.tokenizeMSA(s)` maps a sequence character-wise to
token ids. -/
def tokenizeMSA (tk : Tokenizer) (s : List Char) : List ℕ :=
  s.map tk.tokenizeChar

/-- The common length `pad_sequence` pads the batch to: the maximum
sequence length in the batch. -/
def batchMaxLen (seqs : List (List Char)) : ℕ :=
  (seqs.map List.length).foldr max 0

/-- Per-position cross entropy of a logit vector against a target token:
`-log softmax(logits)[target] = log (Σ_j exp logits[j]) - logits[target]`. -/
noncomputable def ceLoss (logits : ℕ → ℝ) (vocab : ℕ) (target : ℕ) : ℝ :=
  Real.log (∑ j ∈ Finset.range vocab, Real.exp (logits j)) - logits target

/-- Line 73/82: `CrossEntropyLoss(reduction='none', ignore_index=pad_id)`:
the per-token loss, which is 0 at positions whose target is the pad id. -/
noncomputable def loss_per_token (tk : Tokenizer) (logits : ℕ → ℝ) (target : ℕ) : ℝ :=
  if target = tk.pad_id then 0 else ceLoss logits tk.vocab_size target

/-- Line 76, `pad_sequence(..., batch_first=True, padding_value=pad_id)`
for one row: the tokenized sequence right-padded with the pad id to the
common batch length `L`. -/
def paddedRow (tk : Tokenizer) (L : ℕ) (s : List Char) : List ℕ :=
  tokenizeMSA tk s ++ List.replicate (L - (tokenizeMSA tk s).length) tk.pad_id

/-- Lines 75-84 for one batch row: tokenize, right-pad to the batch length
`L` with the pad id, feed the all-mask row of width `L` and the true
length to the model, take the per-token cross entropy against the padded
targets, zero out pad positions with the validity mask
`(tokenized_batch != pad_id).float()`, and sum over the row. -/
noncomputable def nllRow (M : Model) (tk : Tokenizer) (L : ℕ) (s : List Char) : ℝ :=
  ∑ p ∈ Finset.range L,
    (if (paddedRow tk L s).getD p tk.pad_id ≠ tk.pad_id then (1 : ℝ) else 0)
      * loss_per_token tk (M (List.replicate L tk.mask_id) s.length p)
          ((paddedRow tk L s).getD p tk.pad_id)

/-- Lines 72-86: `calculate_nll` returns one NLL per sequence, each row
evaluated against the batch padded to the batch-wide maximum length. -/
noncomputable def calculate_nll (M : Model) (tk : Tokenizer)
    (seqs : List (List Char)) : List ℝ :=
  seqs.map (nllRow M tk (batchMaxLen seqs))

/-- Lines 161-163: `log_ratios = (-policy_nll) - (-ref_nll)` elementwise. -/
noncomputable def log_ratios (policy ref : Model) (tk : Tokenizer)
    (seqs : List (List Char)) : List ℝ :=
  List.zipWith (fun pn rn => (-pn) - (-rn))
    (calculate_nll policy tk seqs) (calculate_nll ref tk seqs)

/- ---------------------------------------------------------------
   Training orchestrator (lines 97-181)
   --------------------------------------------------------------- -/

/-- The mutable state of a run: policy parameters, reference parameters
and the optimizer's internal state (AdamW moment estimates). -/
structure TrainState (P O : Type) where
  policyParams : P
  refParams : P
  optState : O

/-- The collaborators of one training step, abstracted over the parameter
type `P` and optimizer-state type `O`:

* `modelOf` instantiates the network at given parameters (policy or
  reference), to be used by `calculate_nll`;
* `generate` is the external sampler `generate_oaardm` run under
  `torch.no_grad()` on the current policy parameters (lines 140-147);
* `oracle` is the per-sequence external scoring work inside `get_reward`;
* `backward` is `loss.backward()` (line 167): the gradient of the GRPO
  loss with respect to the policy parameters; the generated batch, the
  advantages and the reference NLLs are constants of that graph;
* `optStep` is `optimizer.step()` (line 168) for an optimizer constructed
  over the policy parameters only (lines 115-121): it consumes the
  optimizer state, the policy parameters and a gradient, and returns the
  updated optimizer state and updated policy parameters. -/
structure Env (P O : Type) where
  modelOf : P → Model
  tk : Tokenizer
  generate : P → List (List Char)
  oracle : ℕ → List Char → Except Unit (ℝ × ℝ)
  backward : P → List (List Char) → List ℝ → List ℝ → P
  optStep : O → P → P → O × P

/-- Lines 138-168, one step of the loop: sample a batch from the policy,
score it, normalize rewards into advantages, evaluate policy and
reference NLLs over the same batch, form the log-ratios and the GRPO
loss, backpropagate and step the optimizer.  Only the policy parameters
and the optimizer state are replaced; the reference parameters are
carried over unchanged (they were frozen at lines 110-112 and the
optimizer of lines 115-121 only holds the policy parameters). -/
noncomputable def trainStep {P O : Type} (env : Env P O) (st : TrainState P O) : TrainState P O :=
  let gen_seqs := env.generate st.policyParams
  let rewards := get_reward env.oracle gen_seqs
  let advs := advantages rewards
  let policy_nll := calculate_nll (env.modelOf st.policyParams) env.tk gen_seqs
  let ref_nll := calculate_nll (env.modelOf st.refParams) env.tk gen_seqs
  let lr := List.zipWith (fun pn rn => (-pn) - (-rn)) policy_nll ref_nll
  let loss := grpo_loss lr advs kl_beta_cfg
  let grad := env.backward st.policyParams gen_seqs advs ref_nll
  let next := env.optStep st.optState st.policyParams grad
  { policyParams := next.2, refParams := st.refParams, optState := next.1 }

/-- A step environment together with an abstract failure indicator:
`fails e s = true` means a fatal exception is raised during sampling,
evaluation or update of step `s` of epoch `e` (spec section 4.5: such
failures abort the run and are not retried). -/
structure RunEnv (P O : Type) extends Env P O where
  fails : ℕ → ℕ → Bool

/-- The inner `for step in pbar` loop (lines 138-172), running `k` more
steps starting at step index `s` of epoch `e`: each step either raises
(aborting the whole run, modelled by `Except.error`) or advances the
training state by `trainStep`. -/
noncomputable def runSteps {P O : Type} (env : RunEnv P O) (e : ℕ) :
    ℕ → ℕ → TrainState P O → Except Unit (TrainState P O)
  | _, 0, st => Except.ok st
  | s, k + 1, st =>
    if env.fails e s then Except.error ()
    else runSteps env e (s + 1) k (trainStep env.toEnv st)

/-- Line 178: the checkpoint directory name for (1-based) epoch index
`e`, `f"evodiff_grpo_checkpoint_epoch_{e}"`. -/
def checkpointDir (e : ℕ) : String :=
  "evodiff_grpo_checkpoint_epoch_" ++ Nat.repr e

/-- Lines 130-181, running `k` more epochs starting at (0-based) epoch
index `e`: run `steps_per_epoch` steps; if any step raises, the process
aborts with no checkpoint written for the in-progress epoch; otherwise
the checkpoint directory for epoch `e+1` is written and the next epoch
runs.  Returns the list of checkpoint directories written, in order, and
whether the run completed. -/
noncomputable def runEpochs {P O : Type} (env : RunEnv P O) :
    ℕ → ℕ → TrainState P O → List String × Bool
  | _, 0, _ => ([], true)
  | e, k + 1, st =>
    match runSteps env e 0 steps_per_epoch st with
    | Except.error _ => ([], false)
    | Except.ok st2 =>
      let r := runEpochs env (e + 1) k st2
      (checkpointDir (e + 1) :: r.1, r.2)

/-- Whether some step of epoch `e` raises a fatal exception. -/
def epochFails {P O : Type} (env : RunEnv P O) (e : ℕ) : Bool :=
  (List.range steps_per_epoch).any fun s => env.fails e s

/-- The number of epochs (out of `k` starting at `e`) that complete
before the first epoch with a fatal failure. -/
def completedEpochs {P O : Type} (env : RunEnv P O) : ℕ → ℕ → ℕ
  | _, 0 => 0
  | e, k + 1 =>
    if epochFails env e then 0 else completedEpochs env (e + 1) k + 1

/- ---------------------------------------------------------------
   Decimal representation helpers (for checkpoint-name distinctness)
   --------------------------------------------------------------- -/

/-- The numeric value of a decimal digit character. -/
def digitVal (c : Char) : ℕ := c.toNat - 48

/-- One step of parsing a decimal digit string left to right. -/
def parseStep (a : ℕ) (c : Char) : ℕ := 10 * a + digitVal c

/- ---------------------------------------------------------------
   Concrete witness inputs
   --------------------------------------------------------------- -/

/-- A concrete oracle that fails on sequence 0 and succeeds elsewhere. -/
def oracleW : ℕ → List Char → Except Unit (ℚ × ℚ) :=
  fun j _ => if j = 0 then Except.error () else Except.ok (3, 5)

/-- A concrete oracle that agrees with `oracleW` away from index 0 but
succeeds at index 0. -/
def oracleW2 : ℕ → List Char → Except Unit (ℚ × ℚ) :=
  fun j _ => if j = 0 then Except.ok (1, 2) else Except.ok (3, 5)

/-- A concrete two-sequence batch for the oracle witnesses. -/
def seqsW : List (List Char) := [['A'], ['B']]

/-- A concrete model whose logits are all zero (it ignores its row input,
so it satisfies the spec's length-conditioning contract). -/
def modelW : Model := fun _ _ _ _ => 0

/-- A concrete tokenizer: pad id 0, mask id 1, vocabulary size 2, every
character tokenized to 1. -/
def tokenizerW : Tokenizer := ⟨0, 1, 2, fun _ => 1⟩

/-- A concrete batch with two rows of different lengths, so that the
shorter row really is padded inside the batch. -/
def seqsW2 : List (List Char) := [['A'], ['B', 'C']]

/-- A concrete run environment over trivial parameter and optimizer
state: no step ever fails. -/
noncomputable def runEnvW : RunEnv Unit Unit where
  modelOf := fun _ => modelW
  tk := tokenizerW
  generate := fun _ => seqsW2
  oracle := fun _ _ => Except.error ()
  backward := fun p _ _ _ => p
  optStep := fun o p _ => (o, p)
  fails := fun _ _ => false

/-- A concrete initial training state for `runEnvW`. -/
def stW : TrainState Unit Unit := ⟨(), (), ()⟩

/- ---------------------------------------------------------------
   Claim C1
   --------------------------------------------------------------- -/

/-- C1: for every vector of per-sequence log-ratios, every vector of
advantages and every KL weight β, `grpo_loss` returns exactly
`−mean(advantage[i] × log_ratio[i]) + β × mean(log_ratio[i])`; moreover for
the log-ratios `[0.5, -0.5, 0.2, -0.2]` the KL penalty is `β × 0 = 0`, so
the loss equals the sum of the two terms, the KL term contributing
nothing. -/
theorem grpo_loss_matches_spec :
    (∀ (log_ratios advs : List ℚ) (kl_beta : ℚ),
      grpo_loss log_ratios advs kl_beta = grpo_loss_spec log_ratios advs kl_beta)
    ∧ (∀ kl_beta : ℚ, kl_penalty [(0.5 : ℚ), -0.5, 0.2, -0.2] kl_beta
        = kl_beta * 0)
    ∧ (∀ (advs : List ℚ) (kl_beta : ℚ),
      grpo_loss [(0.5 : ℚ), -0.5, 0.2, -0.2] advs kl_beta
        = policy_objective [(0.5 : ℚ), -0.5, 0.2, -0.2] advs + 0) := by
  refine ⟨fun lr advs b => rfl, fun b => ?_, fun advs b => ?_⟩
  · show b * mean [(0.5 : ℚ), -0.5, 0.2, -0.2] = b * 0
    norm_num [mean]
  · show policy_objective _ advs + kl_penalty _ b = _
    have h : kl_penalty [(0.5 : ℚ), -0.5, 0.2, -0.2] b = 0 := by
      show b * mean [(0.5 : ℚ), -0.5, 0.2, -0.2] = 0
      norm_num [mean]
    rw [h]

/- ---------------------------------------------------------------
   Claim C3
   --------------------------------------------------------------- -/

theorem get_reward_getD {α : Type} [DivisionRing α]
    (oracle : ℕ → List Char → Except Unit (α × α))
    (seqs : List (List Char)) (j : ℕ) (hj : j < seqs.length) :
    (get_reward oracle seqs).getD j 0 = rewardOf (oracle j (seqs.getD j [])) := by
  have hlen : j < (get_reward oracle seqs).length := by
    simpa [get_reward] using hj
  rw [List.getD_eq_getElem _ _ hlen, List.getD_eq_getElem _ _ hj]
  simp [get_reward, List.getElem_enum]

theorem get_reward_length {α : Type} [DivisionRing α]
    (oracle : ℕ → List Char → Except Unit (α × α)) (seqs : List (List Char)) :
    (get_reward oracle seqs).length = seqs.length := by
  simp [get_reward]

/-- C3: `get_reward` returns exactly one reward per input sequence, in
input order; if the oracle work for sequence `i` raises, then
`reward[i] = -100.0` while every other index is exactly what it would be
under an oracle that succeeds at `i` (the batch is never aborted, indices
never shift); on success `reward[i] = iptm + 0.1 * avg_plddt`. -/
theorem get_reward_per_sequence_isolation
    (oracle oracle2 : ℕ → List Char → Except Unit (ℚ × ℚ))
    (seqs : List (List Char)) (i : ℕ) (hi : i < seqs.length)
    (hfail : oracle i (seqs.getD i []) = Except.error ())
    (hagree : ∀ j s, j ≠ i → oracle j s = oracle2 j s) :
    (get_reward oracle seqs).length = seqs.length
    ∧ (get_reward oracle seqs).getD i 0 = -100
    ∧ (∀ j, j ≠ i →
        (get_reward oracle seqs).getD j 0 = (get_reward oracle2 seqs).getD j 0)
    ∧ (∀ j v, j < seqs.length → oracle2 j (seqs.getD j []) = Except.ok v →
        (get_reward oracle2 seqs).getD j 0 = v.1 + (1 / 10) * v.2) := by
  refine ⟨get_reward_length oracle seqs, ?_, ?_, ?_⟩
  · rw [get_reward_getD oracle seqs i hi, hfail]
    rfl
  · intro j hj
    by_cases hjl : j < seqs.length
    · rw [get_reward_getD oracle seqs j hjl, get_reward_getD oracle2 seqs j hjl,
        hagree j (seqs.getD j []) hj]
    · have h1 : (get_reward oracle seqs).length ≤ j := by
        rw [get_reward_length]; omega
      have h2 : (get_reward oracle2 seqs).length ≤ j := by
        rw [get_reward_length]; omega
      rw [List.getD_eq_default _ _ h1, List.getD_eq_default _ _ h2]
  · intro j v hjl hok
    rw [get_reward_getD oracle2 seqs j hjl, hok]
    simp [rewardOf]

/-- Witness for C3 at a concrete batch and oracles: the failing index gets
the sentinel, the other index is isolated from the failure. -/
theorem get_reward_per_sequence_isolation_witness :
    (get_reward oracleW seqsW).length = seqsW.length
    ∧ (get_reward oracleW seqsW).getD 0 0 = -100 := by
  have h := get_reward_per_sequence_isolation oracleW oracleW2 seqsW 0
    (by norm_num [seqsW])
    (by rfl)
    (by intro j s hj; simp [oracleW, oracleW2, hj])
  exact ⟨h.1, h.2.1⟩

/- ---------------------------------------------------------------
   Advantage normalization: shared lemmas
   --------------------------------------------------------------- -/

theorem sum_map_sub_const (xs : List ℝ) (c : ℝ) :
    (xs.map fun x => x - c).sum = xs.sum - xs.length * c := by
  induction xs with
  | nil => simp
  | cons a t ih => simp [ih]; ring

theorem length_pos_of_two_le (xs : List ℝ) (h2 : 2 ≤ xs.length) :
    ((xs.length : ℝ)) ≠ 0 := by
  have : (0 : ℕ) < xs.length := by omega
  exact_mod_cast Nat.pos_iff_ne_zero.mp this

theorem mean_of_constant (xs : List ℝ) (c : ℝ) (h : (xs.length : ℝ) ≠ 0)
    (hc : ∀ x ∈ xs, x = c) : mean xs = c := by
  have hs : xs.sum = xs.length • c := List.sum_eq_card_nsmul xs c hc
  rw [mean, hs, nsmul_eq_mul]
  field_simp

theorem std_nonneg (xs : List ℝ) : 0 ≤ std xs := Real.sqrt_nonneg _

theorem std_add_eps_pos (xs : List ℝ) : 0 < std xs + epsilon_std := by
  have h1 : (0 : ℝ) < epsilon_std := by norm_num [epsilon_std]
  have h2 := std_nonneg xs
  linarith

theorem std_of_constant (xs : List ℝ) (c : ℝ) (h : (xs.length : ℝ) ≠ 0)
    (hc : ∀ x ∈ xs, x = c) : std xs = 0 := by
  have hm := mean_of_constant xs c h hc
  have hz : (xs.map fun x => (x - mean xs) ^ 2).sum = 0 := by
    have : ∀ y ∈ xs.map fun x => (x - mean xs) ^ 2, y = 0 := by
      intro y hy
      rcases List.mem_map.mp hy with ⟨x, hx, hfx⟩
      rw [← hfx, hm, hc x hx]
      ring
    rw [List.sum_eq_card_nsmul _ 0 this, smul_zero]
  rw [std, hz, zero_div, Real.sqrt_zero]

theorem advantages_getD (xs : List ℝ) (j : ℕ) (hj : j < xs.length) :
    (advantages xs).getD j 0
      = (xs.getD j 0 - mean xs) / (std xs + epsilon_std) := by
  have hlen : j < (advantages xs).length := by simpa [advantages] using hj
  rw [List.getD_eq_getElem _ _ hlen, List.getD_eq_getElem _ _ hj]
  simp [advantages]

theorem mean_advantages_zero (xs : List ℝ) (h : (xs.length : ℝ) ≠ 0) :
    mean (advantages xs) = 0 := by
  have hsum : (advantages xs).sum = 0 := by
    have h1 : advantages xs
        = xs.map fun r => (r - mean xs) * (std xs + epsilon_std)⁻¹ := by
      simp only [advantages, div_eq_mul_inv]
    rw [h1, List.sum_map_mul_right, sum_map_sub_const, mean]
    have hcancel : (xs.length : ℝ) * (xs.sum / (xs.length : ℝ)) = xs.sum := by
      field_simp
    rw [hcancel, sub_self, zero_mul]
  rw [mean, hsum, zero_div]

/- ---------------------------------------------------------------
   Claim C4
   --------------------------------------------------------------- -/

/-- C4: for every reward batch of size at least 2 in which every reward
has the same value, the divisor `std + epsilon` of the advantage
computation is nonzero (no division by zero) and every advantage is
exactly 0. -/
theorem advantage_degenerate_batch (xs : List ℝ) (c : ℝ)
    (h2 : 2 ≤ xs.length) (hc : ∀ x ∈ xs, x = c) :
    std xs + epsilon_std ≠ 0 ∧ advantages xs = List.replicate xs.length 0 := by
  have hn := length_pos_of_two_le xs h2
  have hm := mean_of_constant xs c hn hc
  refine ⟨ne_of_gt (std_add_eps_pos xs), ?_⟩
  rw [List.eq_replicate_iff]
  refine ⟨by simp [advantages], ?_⟩
  intro b hb
  rcases List.mem_map.mp hb with ⟨x, hx, hfx⟩
  rw [← hfx, hm, hc x hx, sub_self, zero_div]

/-- Witness for C4 at the concrete degenerate batch `[3, 3]`. -/
theorem advantage_degenerate_batch_witness :
    std [(3 : ℝ), 3] + epsilon_std ≠ 0
    ∧ advantages [(3 : ℝ), 3] = List.replicate (List.length [(3 : ℝ), 3]) 0 :=
  advantage_degenerate_batch [(3 : ℝ), 3] 3 (by norm_num)
    (by intro x hx; rcases List.mem_cons.mp hx with h | h
        · exact h
        · simpa using h)

/- ---------------------------------------------------------------
   Claim C5
   --------------------------------------------------------------- -/

/-- C5: for every reward batch of size at least 2, the advantages have
exactly zero mean; the gap between any two advantages is the gap between
the corresponding rewards divided by the (positive) constant
`std + epsilon`, so two distinct rewards always yield two distinct
advantages (nonzero spread proportional to the reward spread). -/
theorem advantage_mean_zero_and_spread (xs : List ℝ) (h2 : 2 ≤ xs.length) :
    mean (advantages xs) = 0
    ∧ (∀ i j, i < xs.length → j < xs.length →
        (advantages xs).getD i 0 - (advantages xs).getD j 0
          = (xs.getD i 0 - xs.getD j 0) / (std xs + epsilon_std))
    ∧ (∀ i j, i < xs.length → j < xs.length → xs.getD i 0 ≠ xs.getD j 0 →
        (advantages xs).getD i 0 ≠ (advantages xs).getD j 0) := by
  have hn := length_pos_of_two_le xs h2
  have hdiff : ∀ i j, i < xs.length → j < xs.length →
      (advantages xs).getD i 0 - (advantages xs).getD j 0
        = (xs.getD i 0 - xs.getD j 0) / (std xs + epsilon_std) := by
    intro i j hi hj
    rw [advantages_getD xs i hi, advantages_getD xs j hj, div_sub_div_same]
    ring_nf
  refine ⟨mean_advantages_zero xs hn, hdiff, ?_⟩
  intro i j hi hj hne heq
  have h0 : (xs.getD i 0 - xs.getD j 0) / (std xs + epsilon_std) = 0 := by
    rw [← hdiff i j hi hj, heq, sub_self]
  have hd := ne_of_gt (std_add_eps_pos xs)
  have := (div_eq_zero_iff.mp h0).resolve_right hd
  exact hne (by linarith [sub_eq_zero.mp this])

/-- Witness for C5 at the concrete batch `[1, 2]`. -/
theorem advantage_mean_zero_and_spread_witness :
    mean (advantages [(1 : ℝ), 2]) = 0 :=
  (advantage_mean_zero_and_spread [(1 : ℝ), 2] (by norm_num)).1

/- ---------------------------------------------------------------
   Claim C2: the [1.0, 2.0, 3.0, 4.0] scenario
   --------------------------------------------------------------- -/

theorem mean_example : mean [(1 : ℝ), 2, 3, 4] = 5 / 2 := by
  norm_num [mean]

theorem std_example : std [(1 : ℝ), 2, 3, 4] = Real.sqrt (5 / 3) := by
  have h : ((([(1 : ℝ), 2, 3, 4]).map fun x => (x - mean [(1 : ℝ), 2, 3, 4]) ^ 2).sum
      / (((List.length [(1 : ℝ), 2, 3, 4] : ℕ) : ℝ) - 1)) = 5 / 3 := by
    norm_num [mean]
  rw [std, h]

theorem std_example_bounds :
    1.2909 < std [(1 : ℝ), 2, 3, 4] ∧ std [(1 : ℝ), 2, 3, 4] < 1.2911 := by
  rw [std_example]
  exact ⟨(Real.lt_sqrt (by norm_num)).mpr (by norm_num),
    (Real.sqrt_lt' (by norm_num)).mpr (by norm_num)⟩

theorem adv_example_getD (k : ℕ) (hk : k < 4) :
    (advantages [(1 : ℝ), 2, 3, 4]).getD k 0
      = (([(1 : ℝ), 2, 3, 4]).getD k 0 - 5 / 2) / (Real.sqrt (5 / 3) + epsilon_std) := by
  rw [advantages_getD [(1 : ℝ), 2, 3, 4] k (by simpa using hk), mean_example, std_example]

/-- C2 counterexample: the claim's numbers are false on the code.  The
implementation's standard deviation of `[1, 2, 3, 4]` is the PyTorch
sample standard deviation `sqrt(5/3) ≈ 1.291`, not `≈ 1.118` (which would
be the population standard deviation), and the last advantage is
`≈ 1.162`, not `≈ 1.34`; both are off by far more than any reading of
"approximately" (deviation exceeds 0.05). -/
theorem advantage_example_refuted :
    (0.05 : ℝ) < |std [(1 : ℝ), 2, 3, 4] - 1.118|
    ∧ (0.05 : ℝ) < |(advantages [(1 : ℝ), 2, 3, 4]).getD 3 0 - 1.34| := by
  obtain ⟨hlo, hhi⟩ := std_example_bounds
  rw [std_example] at hlo hhi
  have hep : (0 : ℝ) < epsilon_std := by norm_num [epsilon_std]
  have hep2 : epsilon_std ≤ (0.0000001 : ℝ) := by norm_num [epsilon_std]
  have hd : 0 < Real.sqrt (5 / 3) + epsilon_std := by linarith
  constructor
  · rw [std_example, lt_abs]
    left
    linarith
  · rw [lt_abs]
    right
    rw [adv_example_getD 3 (by norm_num)]
    have hg : (([(1 : ℝ), 2, 3, 4]).getD 3 0 - 5 / 2) = 3 / 2 := by norm_num
    rw [hg]
    have key : (3 / 2) / (Real.sqrt (5 / 3) + epsilon_std)
        * (Real.sqrt (5 / 3) + epsilon_std) = 3 / 2 :=
      div_mul_cancel₀ _ (ne_of_gt hd)
    nlinarith [key, hlo, hhi, hep, hep2, hd]

/-- C2 as amended: for the reward batch `[1, 2, 3, 4]` the mean is 2.5,
the implementation's standard deviation (PyTorch sample std, Bessel
correction) is `sqrt(5/3) ≈ 1.291`, and the advantages are approximately
`[-1.162, -0.387, 0.387, 1.162]` (each within 0.001). -/
theorem advantage_example_amended :
    mean [(1 : ℝ), 2, 3, 4] = 2.5
    ∧ std [(1 : ℝ), 2, 3, 4] ^ 2 = 5 / 3
    ∧ |std [(1 : ℝ), 2, 3, 4] - 1.291| < 0.001
    ∧ |(advantages [(1 : ℝ), 2, 3, 4]).getD 0 0 + 1.162| < 0.001
    ∧ |(advantages [(1 : ℝ), 2, 3, 4]).getD 1 0 + 0.387| < 0.001
    ∧ |(advantages [(1 : ℝ), 2, 3, 4]).getD 2 0 - 0.387| < 0.001
    ∧ |(advantages [(1 : ℝ), 2, 3, 4]).getD 3 0 - 1.162| < 0.001 := by
  obtain ⟨hlo, hhi⟩ := std_example_bounds
  rw [std_example] at hlo hhi
  have hep : (0 : ℝ) < epsilon_std := by norm_num [epsilon_std]
  have hep2 : epsilon_std ≤ (0.0000001 : ℝ) := by norm_num [epsilon_std]
  have hd : 0 < Real.sqrt (5 / 3) + epsilon_std := by linarith
  have hd0 : Real.sqrt (5 / 3) + epsilon_std ≠ 0 := ne_of_gt hd
  refine ⟨by rw [mean_example]; norm_num, ?_, ?_, ?_, ?_, ?_, ?_⟩
  · rw [std_example]
    exact Real.sq_sqrt (by norm_num)
  · rw [std_example, abs_lt]
    constructor <;> linarith
  · rw [adv_example_getD 0 (by norm_num), abs_lt]
    have hg : (([(1 : ℝ), 2, 3, 4]).getD 0 0 - 5 / 2) = -(3 / 2) := by norm_num
    rw [hg]
    have key : (-(3 / 2)) / (Real.sqrt (5 / 3) + epsilon_std)
        * (Real.sqrt (5 / 3) + epsilon_std) = -(3 / 2) := div_mul_cancel₀ _ hd0
    constructor <;> nlinarith [key, hlo, hhi, hep, hep2, hd]
  · rw [adv_example_getD 1 (by norm_num), abs_lt]
    have hg : (([(1 : ℝ), 2, 3, 4]).getD 1 0 - 5 / 2) = -(1 / 2) := by norm_num
    rw [hg]
    have key : (-(1 / 2)) / (Real.sqrt (5 / 3) + epsilon_std)
        * (Real.sqrt (5 / 3) + epsilon_std) = -(1 / 2) := div_mul_cancel₀ _ hd0
    constructor <;> nlinarith [key, hlo, hhi, hep, hep2, hd]
  · rw [adv_example_getD 2 (by norm_num), abs_lt]
    have hg : (([(1 : ℝ), 2, 3, 4]).getD 2 0 - 5 / 2) = 1 / 2 := by norm_num
    rw [hg]
    have key : (1 / 2) / (Real.sqrt (5 / 3) + epsilon_std)
        * (Real.sqrt (5 / 3) + epsilon_std) = 1 / 2 := div_mul_cancel₀ _ hd0
    constructor <;> nlinarith [key, hlo, hhi, hep, hep2, hd]
  · rw [adv_example_getD 3 (by norm_num), abs_lt]
    have hg : (([(1 : ℝ), 2, 3, 4]).getD 3 0 - 5 / 2) = 3 / 2 := by norm_num
    rw [hg]
    have key : (3 / 2) / (Real.sqrt (5 / 3) + epsilon_std)
        * (Real.sqrt (5 / 3) + epsilon_std) = 3 / 2 := div_mul_cancel₀ _ hd0
    constructor <;> nlinarith [key, hlo, hhi, hep, hep2, hd]

/- ---------------------------------------------------------------
   Likelihood evaluator: shared lemmas
   --------------------------------------------------------------- -/

theorem paddedRow_getD_lt (tk : Tokenizer) (L : ℕ) (s : List Char) (p : ℕ)
    (hp : p < s.length) :
    (paddedRow tk L s).getD p tk.pad_id = (tokenizeMSA tk s).getD p tk.pad_id := by
  have hlen : p < (tokenizeMSA tk s).length := by
    simpa [tokenizeMSA] using hp
  rw [paddedRow, List.getD_eq_getElem?_getD, List.getD_eq_getElem?_getD,
    List.getElem?_append, if_pos hlen]

theorem paddedRow_getD_ge (tk : Tokenizer) (L : ℕ) (s : List Char) (p : ℕ)
    (hp : s.length ≤ p) :
    (paddedRow tk L s).getD p tk.pad_id = tk.pad_id := by
  have hlen : (tokenizeMSA tk s).length ≤ p := by
    simpa [tokenizeMSA] using hp
  rw [paddedRow, List.getD_eq_getElem?_getD, List.getElem?_append, if_neg (by omega)]
  rw [List.getElem?_replicate]
  split <;> rfl

theorem paddedRow_getD_cases (tk : Tokenizer) (L : ℕ) (s : List Char) (p : ℕ) :
    (paddedRow tk L s).getD p tk.pad_id = tk.pad_id
    ∨ ∃ c, (paddedRow tk L s).getD p tk.pad_id = tk.tokenizeChar c := by
  by_cases hp : p < s.length
  · right
    rw [paddedRow_getD_lt tk L s p hp]
    have hlen : p < (tokenizeMSA tk s).length := by simpa [tokenizeMSA] using hp
    rw [List.getD_eq_getElem _ _ hlen]
    have hmem : (tokenizeMSA tk s)[p] ∈ tokenizeMSA tk s := List.getElem_mem hlen
    rcases List.mem_map.mp (by simpa [tokenizeMSA] using hmem) with ⟨c, _, hc⟩
    exact ⟨c, by simp [tokenizeMSA, ← hc]⟩
  · left
    exact paddedRow_getD_ge tk L s p (by omega)

theorem ceLoss_nonneg (logits : ℕ → ℝ) (vocab target : ℕ) (ht : target < vocab) :
    0 ≤ ceLoss logits vocab target := by
  have hmem : target ∈ Finset.range vocab := Finset.mem_range.mpr ht
  have hle : Real.exp (logits target) ≤ ∑ j ∈ Finset.range vocab, Real.exp (logits j) :=
    Finset.single_le_sum (fun j _ => le_of_lt (Real.exp_pos (logits j))) hmem
  have hlog := Real.log_le_log (Real.exp_pos (logits target)) hle
  rw [Real.log_exp] at hlog
  rw [ceLoss]
  linarith

theorem nllRow_nonneg (M : Model) (tk : Tokenizer) (L : ℕ) (s : List Char)
    (hv : ∀ c, tk.tokenizeChar c < tk.vocab_size) :
    0 ≤ nllRow M tk L s := by
  rw [nllRow]
  apply Finset.sum_nonneg
  intro p _
  rcases paddedRow_getD_cases tk L s p with hpad | ⟨c, hc⟩
  · rw [hpad]
    simp
  · rw [hc]
    by_cases hceq : tk.tokenizeChar c = tk.pad_id
    · rw [hceq]
      simp
    · rw [if_pos hceq, one_mul, loss_per_token, if_neg hceq]
      exact ceLoss_nonneg _ _ _ (hv c)

theorem le_batchMaxLen (seqs : List (List Char)) (s : List Char) (hs : s ∈ seqs) :
    s.length ≤ batchMaxLen seqs := by
  induction seqs with
  | nil => cases hs
  | cons a t ih =>
    rcases List.mem_cons.mp hs with h | h
    · subst h
      exact le_max_left _ _
    · exact le_trans (ih h) (le_max_right _ _)

theorem batchMaxLen_singleton (s : List Char) : batchMaxLen [s] = s.length := by
  simp [batchMaxLen]

theorem nllRow_extend (M : Model) (tk : Tokenizer)
    (hM : ∀ (r₁ r₂ : List ℕ) (len p t : ℕ), M r₁ len p t = M r₂ len p t)
    (s : List Char) (L : ℕ) (hL : s.length ≤ L) :
    nllRow M tk L s = nllRow M tk s.length s := by
  rw [nllRow, nllRow]
  rw [← Finset.sum_subset (Finset.range_subset.mpr hL) ?hz]
  case hz =>
    intro p _ hp
    have hsp : s.length ≤ p := by
      by_contra hcon
      exact hp (Finset.mem_range.mpr (by omega))
    rw [paddedRow_getD_ge tk L s p hsp]
    simp
  apply Finset.sum_congr rfl
  intro p hp
  have hps : p < s.length := Finset.mem_range.mp hp
  have hrow : M (List.replicate L tk.mask_id) s.length p
      = M (List.replicate s.length tk.mask_id) s.length p :=
    funext fun t => hM _ _ s.length p t
  rw [paddedRow_getD_lt tk L s p hps, paddedRow_getD_lt tk s.length s p hps, hrow]

/- ---------------------------------------------------------------
   Claim C6
   --------------------------------------------------------------- -/

/-- C6: if the policy and reference NLLs are computed by the same
`calculate_nll` applied to the same model, the same tokenizer and the same
batch, every per-sequence log-ratio is exactly 0 and the KL term
`β * mean(log_ratios)` of the GRPO loss is 0. -/
theorem log_ratio_same_model_zero (M : Model) (tk : Tokenizer)
    (seqs : List (List Char)) (kl_beta : ℝ) (hne : seqs ≠ []) :
    log_ratios M M tk seqs = List.replicate seqs.length 0
    ∧ kl_penalty (log_ratios M M tk seqs) kl_beta = 0 := by
  have hnil : seqs.length ≠ 0 := fun h => hne (List.length_eq_zero.mp h)
  have h1 : log_ratios M M tk seqs = List.replicate seqs.length 0 := by
    rw [log_ratios, List.zipWith_same, List.eq_replicate_iff]
    constructor
    · simp [calculate_nll]
    · intro b hb
      rcases List.mem_map.mp hb with ⟨x, _, hfx⟩
      rw [← hfx]
      ring
  refine ⟨h1, ?_⟩
  rw [h1, kl_penalty]
  have hmz : mean (List.replicate seqs.length (0 : ℝ)) = 0 := by
    rw [mean, List.sum_replicate, smul_zero, zero_div]
  rw [hmz, mul_zero]

/-- Witness for C6 at a concrete model, tokenizer and two-sequence
batch. -/
theorem log_ratio_same_model_zero_witness :
    log_ratios modelW modelW tokenizerW seqsW2 = List.replicate seqsW2.length 0
    ∧ kl_penalty (log_ratios modelW modelW tokenizerW seqsW2) kl_beta_cfg = 0 :=
  log_ratio_same_model_zero modelW tokenizerW seqsW2 kl_beta_cfg (by simp [seqsW2])

/- ---------------------------------------------------------------
   Claim C7
   --------------------------------------------------------------- -/

/-- C7: the per-sequence NLL returned by `calculate_nll` for a sequence
that is right-padded inside a larger batch equals the NLL of the same
sequence evaluated alone in a batch of size 1 — the NLL does not depend on
the co-batched sequences.  The model is external; following the spec
(section 4.2, "logits conditioned on each sequence's true (unpadded)
length") the hypothesis `hM` says its logits do not depend on the content
of the all-mask input row (whose width is the only thing co-batched
sequences influence).  Given that contract, the theorem verifies that the
evaluator's `ignore_index` and validity mask make all padding positions
contribute exactly 0 and leave the valid positions untouched. -/
theorem nll_padding_invariant (M : Model) (tk : Tokenizer)
    (hM : ∀ (r₁ r₂ : List ℕ) (len p t : ℕ), M r₁ len p t = M r₂ len p t)
    (seqs : List (List Char)) (i : ℕ) (hi : i < seqs.length) :
    (calculate_nll M tk seqs).getD i 0
      = (calculate_nll M tk [seqs.getD i []]).getD 0 0 := by
  have hlen : i < (calculate_nll M tk seqs).length := by
    simpa [calculate_nll] using hi
  rw [List.getD_eq_getElem _ _ hlen]
  have hrhs : (calculate_nll M tk [seqs.getD i []]).getD 0 0
      = nllRow M tk (batchMaxLen [seqs.getD i []]) (seqs.getD i []) := by
    rfl
  rw [hrhs, batchMaxLen_singleton]
  have hel : (calculate_nll M tk seqs)[i]
      = nllRow M tk (batchMaxLen seqs) seqs[i] := by
    simp [calculate_nll]
  rw [hel]
  have hgd : seqs.getD i [] = seqs[i] := List.getD_eq_getElem seqs [] hi
  rw [hgd]
  exact nllRow_extend M tk hM seqs[i] (batchMaxLen seqs)
    (le_batchMaxLen seqs _ (List.getElem_mem hi))

/-- Witness for C7: the length-1 row of a concrete two-row batch (where it
is padded to width 2) has the same NLL as in a batch of its own. -/
theorem nll_padding_invariant_witness :
    (calculate_nll modelW tokenizerW seqsW2).getD 0 0
      = (calculate_nll modelW tokenizerW [seqsW2.getD 0 []]).getD 0 0 :=
  nll_padding_invariant modelW tokenizerW (fun r₁ r₂ len p t => rfl) seqsW2 0
    (by simp [seqsW2])

/- ---------------------------------------------------------------
   Claim C10
   --------------------------------------------------------------- -/

/-- C10: for every model, tokenizer and batch, every per-sequence NLL
returned by `calculate_nll` is nonnegative (each per-position cross
entropy is nonnegative and the validity mask is 0 or 1), so the policy and
reference log-likelihoods `-nll` are nonpositive.  The hypothesis says
tokenization stays inside the vocabulary the logits range over, as
`CrossEntropyLoss` itself requires. -/
theorem nll_nonneg (M : Model) (tk : Tokenizer) (seqs : List (List Char))
    (hv : ∀ c, tk.tokenizeChar c < tk.vocab_size) :
    ∀ i, 0 ≤ (calculate_nll M tk seqs).getD i 0
      ∧ -((calculate_nll M tk seqs).getD i 0) ≤ 0 := by
  intro i
  have hmain : 0 ≤ (calculate_nll M tk seqs).getD i 0 := by
    by_cases hlen : i < ((calculate_nll M tk seqs)).length
    · rw [List.getD_eq_getElem _ _ hlen]
      have hi : i < seqs.length := by simpa [calculate_nll] using hlen
      have hel : (calculate_nll M tk seqs)[i]
          = nllRow M tk (batchMaxLen seqs) seqs[i] := by
        simp [calculate_nll]
      rw [hel]
      exact nllRow_nonneg M tk _ _ hv
    · rw [List.getD_eq_default _ _ (by omega)]
  exact ⟨hmain, by linarith⟩

/-- Witness for C10 at a concrete model, tokenizer and batch. -/
theorem nll_nonneg_witness :
    0 ≤ (calculate_nll modelW tokenizerW seqsW2).getD 0 0
    ∧ -((calculate_nll modelW tokenizerW seqsW2).getD 0 0) ≤ 0 :=
  nll_nonneg modelW tokenizerW seqsW2 (fun c => by norm_num [tokenizerW]) 0

/- ---------------------------------------------------------------
   Claim C8
   --------------------------------------------------------------- -/

/-- C8: across every training step — and any number of iterated steps —
the reference model's parameters are unchanged: `trainStep` replaces the
policy parameters and the optimizer state through `optStep` (the
optimizer constructed over the policy parameters only) and carries the
reference parameters over untouched. -/
theorem ref_params_frozen {P O : Type} (env : Env P O) (st : TrainState P O) (n : ℕ) :
    (trainStep env st).refParams = st.refParams
    ∧ ((trainStep env)^[n] st).refParams = st.refParams := by
  refine ⟨rfl, ?_⟩
  induction n generalizing st with
  | zero => rfl
  | succ n ih =>
    rw [Function.iterate_succ_apply]
    rw [ih (trainStep env st)]
    rfl

/- ---------------------------------------------------------------
   Decimal representation: Nat.repr is injective
   --------------------------------------------------------------- -/

theorem digitVal_digitChar : ∀ d, d < 10 → digitVal (Nat.digitChar d) = d := by decide

theorem toDigitsCore_append (f n : ℕ) : ∀ ds : List Char,
    Nat.toDigitsCore 10 f n ds = Nat.toDigitsCore 10 f n [] ++ ds := by
  induction f generalizing n with
  | zero =>
    intro ds
    simp [Nat.toDigitsCore]
  | succ f ih =>
    intro ds
    simp only [Nat.toDigitsCore]
    by_cases h : n / 10 = 0
    · rw [if_pos h, if_pos h]
      rfl
    · rw [if_neg h, if_neg h, ih (n / 10) (Nat.digitChar (n % 10) :: ds),
        ih (n / 10) [Nat.digitChar (n % 10)], List.append_assoc]
      rfl

theorem toDigitsCore_fuel (n : ℕ) : ∀ (f₁ f₂ : ℕ) (ds : List Char),
    n < f₁ → n < f₂ →
    Nat.toDigitsCore 10 f₁ n ds = Nat.toDigitsCore 10 f₂ n ds := by
  induction n using Nat.strong_induction_on with
  | _ n ih =>
    intro f₁ f₂ ds h₁ h₂
    obtain ⟨g₁, rfl⟩ : ∃ g, f₁ = g + 1 := ⟨f₁ - 1, by omega⟩
    obtain ⟨g₂, rfl⟩ : ∃ g, f₂ = g + 1 := ⟨f₂ - 1, by omega⟩
    simp only [Nat.toDigitsCore]
    by_cases h : n / 10 = 0
    · rw [if_pos h, if_pos h]
    · rw [if_neg h, if_neg h]
      have hn : 0 < n := by
        rcases Nat.eq_zero_or_pos n with h0 | h0
        · subst h0
          simp at h
        · exact h0
      have hlt : n / 10 < n := Nat.div_lt_self hn (by norm_num)
      exact ih (n / 10) hlt g₁ g₂ _ (by omega) (by omega)

theorem toDigits_single (n : ℕ) (h : n / 10 = 0) :
    Nat.toDigits 10 n = [Nat.digitChar (n % 10)] := by
  show Nat.toDigitsCore 10 (n + 1) n [] = _
  simp only [Nat.toDigitsCore]
  rw [if_pos h]

theorem toDigits_cons (n : ℕ) (h : n / 10 ≠ 0) :
    Nat.toDigits 10 n = Nat.toDigits 10 (n / 10) ++ [Nat.digitChar (n % 10)] := by
  have hn : 0 < n := by
    rcases Nat.eq_zero_or_pos n with h0 | h0
    · subst h0
      simp at h
    · exact h0
  have hlt : n / 10 < n := Nat.div_lt_self hn (by norm_num)
  show Nat.toDigitsCore 10 (n + 1) n [] = _
  simp only [Nat.toDigitsCore]
  rw [if_neg h, toDigitsCore_append n (n / 10) [Nat.digitChar (n % 10)]]
  congr 1
  exact toDigitsCore_fuel (n / 10) n (n / 10 + 1) [] (by omega) (by omega)

theorem foldl_parseStep_toDigits (n : ℕ) : ∀ a : ℕ,
    List.foldl parseStep a (Nat.toDigits 10 n)
      = a * 10 ^ (Nat.toDigits 10 n).length + n := by
  induction n using Nat.strong_induction_on with
  | _ n ih =>
    intro a
    by_cases h : n / 10 = 0
    · rw [toDigits_single n h]
      have hlt : n % 10 < 10 := Nat.mod_lt _ (by norm_num)
      simp only [List.foldl_cons, List.foldl_nil, List.length_cons,
        List.length_nil, parseStep, digitVal_digitChar _ hlt, zero_add, pow_one]
      have hdm := Nat.div_add_mod n 10
      omega
    · have hn : 0 < n := by
        rcases Nat.eq_zero_or_pos n with h0 | h0
        · subst h0
          simp at h
        · exact h0
      have hlt : n / 10 < n := Nat.div_lt_self hn (by norm_num)
      rw [toDigits_cons n h, List.foldl_append, ih (n / 10) hlt a,
        List.length_append]
      have hm : n % 10 < 10 := Nat.mod_lt _ (by norm_num)
      simp only [List.foldl_cons, List.foldl_nil, parseStep,
        digitVal_digitChar _ hm, List.length_cons, List.length_nil, zero_add]
      have hdm := Nat.div_add_mod n 10
      set k := (Nat.toDigits 10 (n / 10)).length with hk
      calc 10 * (a * 10 ^ k + n / 10) + n % 10
          = a * (10 ^ k * 10) + (10 * (n / 10) + n % 10) := by ring
        _ = a * 10 ^ (k + 1) + n := by rw [pow_succ]; omega

theorem toDigits_inj (m n : ℕ) (h : Nat.toDigits 10 m = Nat.toDigits 10 n) :
    m = n := by
  have hm := foldl_parseStep_toDigits m 0
  have hn := foldl_parseStep_toDigits n 0
  rw [h] at hm
  simp only [zero_mul, zero_add] at hm hn
  rw [← hm, hn]

theorem checkpointDir_inj : Function.Injective checkpointDir := by
  intro a b h
  have hd := congrArg String.data h
  rw [checkpointDir, checkpointDir, String.data_append, String.data_append] at hd
  have hcancel := List.append_cancel_left hd
  exact toDigits_inj a b hcancel

/- ---------------------------------------------------------------
   Claim C9: run structure lemmas
   --------------------------------------------------------------- -/

theorem epochFails_true_iff {P O : Type} (env : RunEnv P O) (e : ℕ) :
    epochFails env e = true
      ↔ ∃ s, s < steps_per_epoch ∧ env.fails e s = true := by
  rw [epochFails, List.any_eq_true]
  constructor
  · rintro ⟨s, hs, hf⟩
    exact ⟨s, List.mem_range.mp hs, hf⟩
  · rintro ⟨s, hs, hf⟩
    exact ⟨s, List.mem_range.mpr hs, hf⟩

theorem runSteps_ok {P O : Type} (env : RunEnv P O) (e : ℕ) :
    ∀ (k s : ℕ) (st : TrainState P O),
      (∀ j, j < k → env.fails e (s + j) = false) →
      ∃ st2, runSteps env e s k st = Except.ok st2 := by
  intro k
  induction k with
  | zero =>
    intro s st _
    exact ⟨st, rfl⟩
  | succ k ih =>
    intro s st hok
    have h0 : env.fails e s = false := by
      have := hok 0 (by omega)
      simpa using this
    simp only [runSteps, h0, Bool.false_eq_true, if_false]
    apply ih (s + 1) (trainStep env.toEnv st)
    intro j hj
    have harg : s + 1 + j = s + (j + 1) := by omega
    rw [harg]
    exact hok (j + 1) (by omega)

theorem runSteps_err {P O : Type} (env : RunEnv P O) (e : ℕ) :
    ∀ (k s : ℕ) (st : TrainState P O),
      (∃ j, j < k ∧ env.fails e (s + j) = true) →
      runSteps env e s k st = Except.error () := by
  intro k
  induction k with
  | zero =>
    rintro s st ⟨j, hj, _⟩
    omega
  | succ k ih =>
    rintro s st ⟨j, hj, hf⟩
    by_cases h0 : env.fails e s = true
    · simp only [runSteps, h0, if_true]
    · have h0f : env.fails e s = false := by
        revert h0
        cases env.fails e s <;> simp
      have hj0 : j ≠ 0 := by
        rintro rfl
        rw [Nat.add_zero] at hf
        exact h0 hf
      simp only [runSteps, h0f, Bool.false_eq_true, if_false]
      apply ih (s + 1) (trainStep env.toEnv st)
      refine ⟨j - 1, by omega, ?_⟩
      rw [show s + 1 + (j - 1) = s + j from by omega]
      exact hf

theorem completedEpochs_le {P O : Type} (env : RunEnv P O) :
    ∀ (k e : ℕ), completedEpochs env e k ≤ k := by
  intro k
  induction k with
  | zero =>
    intro e
    simp [completedEpochs]
  | succ k ih =>
    intro e
    rw [completedEpochs]
    split
    · omega
    · have := ih (e + 1)
      omega

theorem runEpochs_trace {P O : Type} (env : RunEnv P O) :
    ∀ (k e : ℕ) (st : TrainState P O),
      (runEpochs env e k st).1
        = (List.range' (e + 1) (completedEpochs env e k)).map checkpointDir
      ∧ ((runEpochs env e k st).2 = true ↔ completedEpochs env e k = k) := by
  intro k
  induction k with
  | zero =>
    intro e st
    exact ⟨rfl, by simp [runEpochs, completedEpochs]⟩
  | succ k ih =>
    intro e st
    by_cases hf : epochFails env e = true
    · have herr : runSteps env e 0 steps_per_epoch st = Except.error () := by
        obtain ⟨s, hs, hfs⟩ := (epochFails_true_iff env e).mp hf
        exact runSteps_err env e steps_per_epoch 0 st ⟨s, hs, by simpa using hfs⟩
      have hce : completedEpochs env e (k + 1) = 0 := by
        rw [completedEpochs, if_pos hf]
      simp only [runEpochs, herr, hce]
      exact ⟨rfl, by simp⟩
    · have hok : ∃ st2, runSteps env e 0 steps_per_epoch st = Except.ok st2 := by
        apply runSteps_ok
        intro j hj
        by_contra hc
        have hjt : env.fails e (0 + j) = true := by
          revert hc
          cases env.fails e (0 + j) <;> simp
        exact hf ((epochFails_true_iff env e).mpr ⟨j, hj, by simpa using hjt⟩)
      obtain ⟨st2, hst2⟩ := hok
      have hce : completedEpochs env e (k + 1) = completedEpochs env (e + 1) k + 1 := by
        rw [completedEpochs, if_neg hf]
      obtain ⟨ih1, ih2⟩ := ih (e + 1) st2
      simp only [runEpochs, hst2, hce]
      constructor
      · rw [List.range'_succ, List.map_cons, ih1]
      · rw [ih2]
        constructor
        · intro h
          omega
        · intro h
          omega

/-- C9: checkpoints are written only at the end of fully completed epochs,
into directories named solely by the (1-based) epoch index
(`evodiff_grpo_checkpoint_epoch_{e+1}`).  If `m` epochs complete before
the first fatal step failure, the trace of written checkpoints is exactly
the directories for epochs `1..m` — pairwise distinct, `m` of them, with
`m = N` exactly when the run finishes all `N` epochs — and on an aborted
run no checkpoint of the in-progress epoch (index `m+1`) is ever
written. -/
theorem checkpoint_per_epoch {P O : Type} (env : RunEnv P O) (N : ℕ)
    (st : TrainState P O) :
    completedEpochs env 0 N ≤ N
    ∧ (runEpochs env 0 N st).1
        = (List.range' 1 (completedEpochs env 0 N)).map checkpointDir
    ∧ (runEpochs env 0 N st).1.length = completedEpochs env 0 N
    ∧ (runEpochs env 0 N st).1.Nodup
    ∧ ((runEpochs env 0 N st).2 = true ↔ completedEpochs env 0 N = N)
    ∧ ((runEpochs env 0 N st).2 = false →
        checkpointDir (completedEpochs env 0 N + 1) ∉ (runEpochs env 0 N st).1) := by
  obtain ⟨h1, h2⟩ := runEpochs_trace env N 0 st
  have hle := completedEpochs_le env N 0
  refine ⟨hle, h1, ?_, ?_, h2, ?_⟩
  · rw [h1]
    simp
  · rw [h1]
    exact List.Nodup.map checkpointDir_inj (List.nodup_range' _ _ 1 (by norm_num))
  · intro _ hmem
    rw [h1] at hmem
    rcases List.mem_map.mp hmem with ⟨x, hx, hcx⟩
    have hxeq : x = completedEpochs env 0 N + 1 := checkpointDir_inj hcx
    subst hxeq
    have := List.mem_range'_1.mp hx
    omega

/-- Witness for C9 at a concrete failure-free two-epoch run. -/
theorem checkpoint_per_epoch_witness :
    completedEpochs runEnvW 0 2 ≤ 2
    ∧ (runEpochs runEnvW 0 2 stW).1
        = (List.range' 1 (completedEpochs runEnvW 0 2)).map checkpointDir :=
  ⟨(checkpoint_per_epoch runEnvW 2 stW).1, (checkpoint_per_epoch runEnvW 2 stW).2.1⟩
